import Mathlib

/-!
Verification development for the snapchat-memories-backuper pipeline
(asset discovery, planning, execution, dry-run simulation, metadata
reconciliation).  Python sources are shallowly embedded: filesystem
snapshots become explicit lists of paths/entries, `pathlib` name
operations are modelled on component lists, and the fallible I/O calls
of the executors are modelled with explicit success oracles (an oracle
value of `false` at an item corresponds to the exception the real call
would raise there).
-/

/-! ## String helpers (Python `str` operations on ASCII data) -/

/-- Model of Python `str.lower()` for the ASCII names this program handles
(`Char.toLower` maps exactly the basic-latin uppercase letters). -/
def lowerStr (s : String) : String :=
  ⟨s.data.map Char.toLower⟩

/-- Decidable infix test on character lists, modelling Python's
`sub in s` substring containment. -/
def hasInfix (pat : List Char) : List Char → Bool
  | [] => pat.isEmpty
  | c :: cs => pat.isPrefixOf (c :: cs) || hasInfix pat cs

/-- Model of Python `sub in s` (substring containment). -/
def containsSub (s sub : String) : Bool :=
  hasInfix sub.data s.data

/-- Model of Python `s.endswith(suffix)`. -/
def strEndsWith (s suffix : String) : Bool :=
  List.isSuffixOf suffix.data s.data

/-- Fuel-driven worker for `replaceList`; the fuel bounds the number of
characters still to be consumed, so `fuel = s.length` never runs out. -/
def replaceListAux (pat rep : List Char) : Nat → List Char → List Char
  | _, [] => []
  | 0, s => s
  | fuel + 1, c :: cs =>
    if pat.isPrefixOf (c :: cs) ∧ pat ≠ [] then
      rep ++ replaceListAux pat rep fuel (cs.drop (pat.length - 1))
    else
      c :: replaceListAux pat rep fuel cs

/-- Left-to-right, non-overlapping replacement of every occurrence of
`pat` by `rep`, modelling Python `str.replace` (for nonempty `pat`;
the program only replaces the literal `"-main"`). -/
def replaceList (pat rep s : List Char) : List Char :=
  replaceListAux pat rep s.length s

/-- Model of Python `str.replace(pat, rep)`. -/
def pyReplace (s pat rep : String) : String :=
  ⟨replaceList pat.data rep.data s.data⟩

/-! ## pathlib name semantics

`PurePath.suffix` is `name[i:]` when `i = name.rfind('.')` satisfies
`0 < i < len(name) - 1`, else the empty string; `stem` is the
complementary part. -/

/-- Index of the last `'.'` in a name, if any (Python `str.rfind('.')`). -/
def rfindDot (name : String) : Option Nat :=
  match name.data.reverse.findIdx? (fun c => c == '.') with
  | none => none
  | some j => some (name.data.length - 1 - j)

/-- Model of Python `PurePath(name).suffix` (on a single path component). -/
def pySuffix (name : String) : String :=
  match rfindDot name with
  | none => ""
  | some i => if 0 < i ∧ i < name.data.length - 1 then ⟨name.data.drop i⟩ else ""

/-- Model of Python `PurePath(name).stem` (on a single path component). -/
def pyStem (name : String) : String :=
  match rfindDot name with
  | none => name
  | some i => if 0 < i ∧ i < name.data.length - 1 then ⟨name.data.take i⟩ else name

/-! ## Path and snapshot model

A path is its list of components (relative to a fixed filesystem root);
a snapshot is the list of files that exist at plan-build time. -/

abbrev PathL := List String

/-- Directory holding a path (all components but the last). -/
def dirOf (p : PathL) : PathL := p.dropLast

/-- Final component of a path (Python `Path.name`). -/
def nameOf (p : PathL) : String := p.getLast?.getD ""

/-- Model of `utils.is_within_path`: `parent in child.parents or child == parent`. -/
def is_within_path (child parent : PathL) : Bool :=
  parent.isPrefixOf child

/-- Point-in-time filesystem snapshot: the set of existing files. -/
structure Snapshot where
  files : List PathL
deriving DecidableEq

/-- Model of `Path.exists()` against a snapshot. -/
def pathExists (fs : Snapshot) (p : PathL) : Bool :=
  fs.files.contains p

/-! ## models.py -/

inductive MemoryKind where
  | image
  | video
deriving DecidableEq, BEq

structure ExtractZipPlan where
  zip_path : PathL
  dest_folder : PathL
deriving DecidableEq

structure CopyPlan where
  src : PathL
  dst : PathL
deriving DecidableEq

structure RenamePlan where
  src : PathL
  dst : PathL
deriving DecidableEq

structure CombinePlan where
  main_path : PathL
  overlay_path : PathL
  out_path : PathL
  kind : MemoryKind
deriving DecidableEq

/-! ## fs.py -/

def IMAGE_EXTS : List String := [".jpg", ".jpeg", ".png"]

def VIDEO_EXT : String := ".mp4"

/-- First four bytes of a ZIP archive: `PK\x03\x04`. -/
def zipSig : List Nat := [0x50, 0x4B, 0x03, 0x04]

/-- Directory entry as seen by `Path.iterdir`: its path, its leading
bytes (what `open(p).read(4)` returns, for files), and whether it is a
regular file. -/
structure Entry where
  path : PathL
  content : List Nat
  isFile : Bool
deriving DecidableEq

/-- Per-entry decision of `fs.find_zip_files_top_level`: immediate
children of `folder` that are files and either carry a `.zip` extension
or start with the ZIP signature. -/
def zipEntryStep (folder : PathL) (e : Entry) : Option PathL :=
  if !(dirOf e.path == folder) then none
  else if !e.isFile then none
  else if lowerStr (pySuffix (nameOf e.path)) == ".zip" then some e.path
  else if e.content.take 4 == zipSig then some e.path
  else none

/-- Model of `fs.find_zip_files_top_level`. -/
def find_zip_files_top_level (fs : List Entry) (folder : PathL) : List PathL :=
  fs.filterMap (zipEntryStep folder)

/-- Model of `fs.split_uuid_and_ext`. -/
def split_uuid_and_ext (main_filename : String) : String × String :=
  let base := pyStem main_filename
  let ext := lowerStr (pySuffix main_filename)
  (pyReplace base "-main" "", ext)

/-- Model of `fs.should_skip_dir`. -/
def should_skip_dir (current_dir input_root output_folder : PathL) : Bool :=
  is_within_path output_folder input_root && is_within_path current_dir output_folder

/-- Model of `fs.enumerate_main_files`: every file under `scan_folder`
whose name contains `"-main."`. -/
def enumerate_main_files (fs : Snapshot) (scan_folder : PathL) : List PathL :=
  fs.files.filter fun f =>
    is_within_path (dirOf f) scan_folder && containsSub (nameOf f) "-main."

/-- Name carrying a lower-cased `.zip` extension (the skip test at the
top of the repair loop in `fs.detect_and_fix_zip_files`). -/
def isZipName (p : PathL) : Bool :=
  lowerStr (pySuffix (nameOf p)) == ".zip"

/-- Model of `file.with_suffix(".zip")`: same directory, stem re-extensioned. -/
def withSuffixZip (p : PathL) : PathL :=
  dirOf p ++ [pyStem (nameOf p) ++ ".zip"]

/-- Does some entry currently sit at path `p` (`Path.exists` during the repair loop)? -/
def entryExists (entries : List Entry) (p : PathL) : Bool :=
  entries.any fun e => e.path == p

/-- Filesystem effect of `file.rename(dst)`: the entry at `old` moves to `dst`. -/
def renameEntry (entries : List Entry) (old dst : PathL) : List Entry :=
  entries.map fun e => if e.path == old then { e with path := dst } else e

/-- One iteration of the `fs.detect_and_fix_zip_files` loop: skip
non-files and `.zip`-named files, sniff the signature, and rename the
file to `<stem>.zip` unless that destination already exists. -/
def fixStep (acc : List Entry × Nat) (e : Entry) : List Entry × Nat :=
  if !e.isFile then acc
  else if isZipName e.path then acc
  else if e.content.take 4 == zipSig then
    let dst := withSuffixZip e.path
    if entryExists acc.1 dst then acc
    else (renameEntry acc.1 e.path dst, acc.2 + 1)
  else acc

/-- Model of `fs.detect_and_fix_zip_files`: fold the repair step over the
immediate children of `folder`, returning the final filesystem state and
the number of renames performed. -/
def detect_and_fix_zip_files (fs : List Entry) (folder : PathL) : List Entry × Nat :=
  (fs.filter fun e => dirOf e.path == folder).foldl fixStep (fs, 0)

/-! ## planner.py -/

/-- Snapshot-independent filter chain of `Planner.plan_copy_standalone_mp4s`
(directory walk restriction, output-subtree skip, `.mp4` extension,
`-main.`/`_combined.` exclusion); the destination-existence check is
applied on top of it in `plan_copy_standalone_mp4s`. -/
def copyCandidate (input_folder output_folder : PathL) (src : PathL) : Option CopyPlan :=
  if !(is_within_path (dirOf src) input_folder) then none
  else if should_skip_dir (dirOf src) input_folder output_folder then none
  else
    let lower := lowerStr (nameOf src)
    if !(strEndsWith lower VIDEO_EXT) then none
    else if containsSub lower "-main." || containsSub lower "_combined." then none
    else
      let rel := src.drop input_folder.length
      some ⟨src, output_folder ++ rel⟩

/-- Model of `Planner.plan_copy_standalone_mp4s`: one copy plan per
standalone video candidate whose destination does not already exist. -/
def plan_copy_standalone_mp4s (fs : Snapshot) (input_folder output_folder : PathL) :
    List CopyPlan :=
  fs.files.filterMap fun src =>
    match copyCandidate input_folder output_folder src with
    | none => none
    | some pl => if pathExists fs pl.dst then none else some pl

/-- Per-file decision of `Planner.plan_unlabeled_renames`: an
extensionless, non-zip file under `source_root` (outside `skip_root`,
when given) is destined to `<same relative path>.jpg` under `dst_root`.
Note there is no destination-existence check in the source. -/
def renameStep (source_root dst_root : PathL) (skip_root : Option PathL)
    (src : PathL) : Option RenamePlan :=
  if !(is_within_path (dirOf src) source_root) then none
  else if (match skip_root with
           | some sk => is_within_path (dirOf src) sk
           | none => false) then none
  else
    let name := nameOf src
    if strEndsWith (lowerStr name) ".zip" then none
    else if containsSub name "." then none
    else
      let rel := src.drop source_root.length
      some ⟨src, dst_root ++ rel.dropLast ++ [pyStem name ++ ".jpg"]⟩

/-- Model of `Planner.plan_unlabeled_renames`. -/
def plan_unlabeled_renames (fs : Snapshot) (source_root dst_root : PathL)
    (skip_root : Option PathL) : List RenamePlan :=
  fs.files.filterMap (renameStep source_root dst_root skip_root)

/-- Plan built from one main file in `Planner.plan_filesystem_combinations`:
require the sibling overlay, then dispatch on the (lower-cased) extension. -/
def combineStep (fs : Snapshot) (output_folder : PathL) (main_path : PathL) :
    Option CombinePlan :=
  let ue := split_uuid_and_ext (nameOf main_path)
  let overlay_path := dirOf main_path ++ [ue.1 ++ "-overlay.png"]
  if !(pathExists fs overlay_path) then none
  else if IMAGE_EXTS.contains ue.2 then
    some ⟨main_path, overlay_path, output_folder ++ [ue.1 ++ ".jpg"], MemoryKind.image⟩
  else if ue.2 == ".mp4" then
    some ⟨main_path, overlay_path, output_folder ++ [ue.1 ++ ".mp4"], MemoryKind.video⟩
  else none

/-- Model of `Planner.plan_filesystem_combinations`. -/
def plan_filesystem_combinations (fs : Snapshot) (scan_folder output_folder : PathL) :
    List CombinePlan :=
  (enumerate_main_files fs scan_folder).filterMap (combineStep fs output_folder)

/-- Model of `Planner.plan_zip_extractions`: one plan per root-level archive. -/
def plan_zip_extractions (fs : List Entry) (input_folder dest_folder : PathL) :
    List ExtractZipPlan :=
  (find_zip_files_top_level fs input_folder).map fun z => ⟨z, dest_folder⟩

/-! ## executors.py

Each service is modelled with an explicit success oracle: `ok plan =
false` means the underlying I/O call (`zipfile.ZipFile`, `shutil.copy2`,
`combine_image`/`combine_video`) raises at that plan.  An `Except.error`
result models an exception propagating out of the service. -/

structure ExecOracle where
  zipOk : ExtractZipPlan → Bool
  copyOk : CopyPlan → Bool
  renameOk : RenamePlan → Bool
  combineOk : CombinePlan → Bool

namespace ZipService

/-- Sequential extraction loop of `ZipService.run` (real mode): there is
no try/except around `zipfile.ZipFile`, so the first unreadable archive
propagates. -/
def runAux (orc : ExecOracle) : Nat → List ExtractZipPlan → Except ExtractZipPlan Nat
  | count, [] => Except.ok count
  | count, p :: rest =>
    if orc.zipOk p then runAux orc (count + 1) rest else Except.error p

/-- Model of `ZipService.run`: dry mode logs and returns 0; real mode
extracts sequentially, counting each archive. -/
def run (orc : ExecOracle) (plans : List ExtractZipPlan) (dry_run : Bool) :
    Except ExtractZipPlan Nat :=
  if plans.isEmpty then Except.ok 0
  else if dry_run then Except.ok 0
  else runAux orc 0 plans

end ZipService

namespace CopyService

/-- Sequential copy loop of `CopyService.run` (real mode): there is no
try/except around `shutil.copy2`, so the first failing copy propagates
and the remaining plans are not processed. -/
def runAux (orc : ExecOracle) : Nat → List CopyPlan → Except CopyPlan Nat
  | done, [] => Except.ok done
  | done, p :: rest =>
    if orc.copyOk p then runAux orc (done + 1) rest else Except.error p

/-- Model of `CopyService.run`. -/
def run (orc : ExecOracle) (plans : List CopyPlan) (dry_run : Bool) :
    Except CopyPlan Nat :=
  if plans.isEmpty then Except.ok 0
  else if dry_run then Except.ok plans.length
  else runAux orc 0 plans

end CopyService

namespace RenameService

/-- Model of `RenameService.run`: each real rename is wrapped in
`try/except OSError: pass`, so a failing item is skipped (excluded from
the count) and the loop continues. -/
def run (orc : ExecOracle) (plans : List RenamePlan) (dry_run : Bool) : Nat :=
  if plans.isEmpty then 0
  else if dry_run then plans.length
  else plans.foldl (fun done p => if orc.renameOk p then done + 1 else done) 0

end RenameService

namespace CombineService

/-- Model of `CombineService.run`.  Real mode submits all image tasks and
all video tasks and then waits with `as_completed`; `f.result()` is called
with no exception handler, so the first failed task's exception propagates
out of the wait-and-collect step (which task is first is scheduler
dependent; the model picks the first failure in submission order — the
`isOk`/`isError` outcome is schedule independent).  On success it reports
`(len(imgs), len(vids))`, the same pair the dry path reports. -/
def run (orc : ExecOracle) (plans : List CombinePlan) (dry_run : Bool)
    : Except CombinePlan (Nat × Nat) :=
  if plans.isEmpty then Except.ok (0, 0)
  else
    let imgs := plans.filter fun p => p.kind == MemoryKind.image
    let vids := plans.filter fun p => p.kind == MemoryKind.video
    if dry_run then Except.ok (imgs.length, vids.length)
    else
      match (imgs ++ vids).find? (fun p => !orc.combineOk p) with
      | some p => Except.error p
      | none => Except.ok (imgs.length, vids.length)

end CombineService

/-! ## simulator.py -/

namespace DryRunSimulator

/-- Model of `DryRunSimulator.simulate_extract_zips`: the count written
into the stats (`len(plans)` when nonempty). -/
def simulate_extract_zips (plans : List ExtractZipPlan) : Nat :=
  if plans.isEmpty then 0 else plans.length

/-- Model of `DryRunSimulator.simulate_rename_files`: counts `len(plans)`. -/
def simulate_rename_files (plans : List RenamePlan) : Nat :=
  if plans.isEmpty then 0 else plans.length

/-- Model of `DryRunSimulator.simulate_combine_files`: groups the plans
by kind and reports `(len(imgs), len(vids))` without any I/O. -/
def simulate_combine_files (plans : List CombinePlan) : Nat × Nat :=
  if plans.isEmpty then (0, 0)
  else
    ((plans.filter fun p => p.kind == MemoryKind.image).length,
     (plans.filter fun p => p.kind == MemoryKind.video).length)

end DryRunSimulator

/-! ## metadata.py

Only what the claims need is modelled concretely: the output-walk
filename matching and record lookup of `apply_metadata_to_outputs`, and
the MP4 branch of `_process_single_file_metadata` (ExifTool writer,
ffmpeg fallback, unconditional `_set_file_times`).  The JPEG/PNG writer
chain (PIL re-encoding, EXIF embedding) is outside every claim and kept
as an abstract per-file transformation parameter.  Captured-at
timestamps are epoch integers; float coordinates are abstract values
never inspected here. -/

structure MemoryMeta where
  uuid : String
  saved_at_utc : Int
  latitude : Option Int
  longitude : Option Int
  kind : MemoryKind
deriving DecidableEq

/-- Output file as the reconciler sees it: its name and its filesystem
modification time (the one field `_set_file_times` writes). -/
structure OutFile where
  name : String
  mtime : Int
deriving DecidableEq

/-- Success oracle for the two MP4 metadata writers
(`write_mp4_metadata_exiftool` and `write_mp4_metadata_ffmpeg`). -/
structure MetadataOracle where
  exiftoolOk : OutFile → Bool
  ffmpegOk : OutFile → Bool

/-- Character class `[0-9a-fA-F-]` of the output-name regex. -/
def isHexDashChar (c : Char) : Bool :=
  "0123456789abcdefABCDEF-".data.contains c

/-- Model of `re.match(r"([0-9a-fA-F-]\x7b36\x7d)(?:_combined)?\.(jpg|png|mp4)$", name)`:
36 identifier characters, an optional `_combined` suffix, and a final
`jpg`/`png`/`mp4` extension.  (When the optional `_combined` is present
but the tail fails, the regex backtracks into a branch that also fails —
the tail would have to start with a dot where an underscore sits — so
the greedy match below is equivalent.) -/
def matchUuidName (name : String) : Option (String × String) :=
  let cs := name.data
  if cs.length < 36 then none
  else
    let uuid := cs.take 36
    if !(uuid.all isHexDashChar) then none
    else
      let rest := cs.drop 36
      let rest2 := if "_combined".data.isPrefixOf rest then rest.drop 9 else rest
      match rest2 with
      | '.' :: e =>
        if ["jpg", "png", "mp4"].contains (⟨e⟩ : String) then some (⟨uuid⟩, ⟨e⟩)
        else none
      | _ => none

/-- Lookup key computed by `apply_metadata_to_outputs`: the file name is
lower-cased before matching and the captured identifier is lower-cased
again to form the table key. -/
def metadataLookupKey (fileName : String) : Option (String × String) :=
  match matchUuidName (lowerStr fileName) with
  | some (uuid, ext) => some (lowerStr uuid, ext)
  | none => none

/-- Model of the `meta_by_uuid` dict lookup. -/
def lookupMeta (table : List (String × MemoryMeta)) (k : String) : Option MemoryMeta :=
  (table.find? fun kv => kv.1 == k).map fun kv => kv.2

/-- Model of `_process_single_file_metadata` (given the extension group
captured by the regex): JPEG/PNG files go through the abstract image
writer chain; MP4 files try ExifTool, then ffmpeg, and set the file
times to the captured-at timestamp in all cases, even when both writers
failed.  Returns the resulting file and the `(image_tagged,
video_tagged)` pair. -/
def process_single_file_metadata (orc : MetadataOracle)
    (imageProc : OutFile → MemoryMeta → OutFile × Bool)
    (f : OutFile) (ext : String) (meta : MemoryMeta) : OutFile × Bool × Bool :=
  if ext = "jpg" ∨ ext = "png" then
    let r := imageProc f meta
    (r.1, r.2, false)
  else if ext = "mp4" then
    let video_tagged := orc.exiftoolOk f || orc.ffmpegOk f
    ({ f with mtime := meta.saved_at_utc }, false, video_tagged)
  else (f, false, false)

/-- Per-file behaviour of `apply_metadata_to_outputs`: files whose name
does not match the pattern, or whose identifier has no record, are
skipped untouched; the rest are processed. -/
def metadataFileStep (orc : MetadataOracle)
    (imageProc : OutFile → MemoryMeta → OutFile × Bool)
    (table : List (String × MemoryMeta)) (f : OutFile) : OutFile × Bool × Bool :=
  match metadataLookupKey f.name with
  | none => (f, false, false)
  | some (uuid, ext) =>
    match lookupMeta table uuid with
    | none => (f, false, false)
    | some meta => process_single_file_metadata orc imageProc f ext meta

/-- Model of `apply_metadata_to_outputs`: walk the output files, process
each selected file (the thread pool joins on all futures, so the counts
are order independent), and report how many images/videos were tagged. -/
def apply_metadata_to_outputs (orc : MetadataOracle)
    (imageProc : OutFile → MemoryMeta → OutFile × Bool)
    (table : List (String × MemoryMeta)) (files : List OutFile) :
    List OutFile × Nat × Nat :=
  let results := files.map (metadataFileStep orc imageProc table)
  (results.map fun r => r.1,
   (results.filter fun r => r.2.1).length,
   (results.filter fun r => r.2.2).length)

/-! ## utils.py -/

/-- How the body of a `with managed_tmp_dir(...)` block hands control
back: normal completion, a raised exception, or an interrupt
(`KeyboardInterrupt`); the latter two reach the context manager's
`finally` identically. -/
inductive RunOutcome where
  | normal
  | raised
  | interrupted
deriving DecidableEq

/-- Filesystem nodes (directories and files) existing at some instant. -/
structure DirState where
  paths : List PathL
deriving DecidableEq

/-- Model of `shutil.rmtree(path, ignore_errors=True)`: every node at or
below `root` is removed. -/
def rmtree (st : DirState) (root : PathL) : DirState :=
  ⟨st.paths.filter fun q => !(root.isPrefixOf q)⟩

/-- Model of `path.mkdir(parents=True, exist_ok=True)`. -/
def mkdirp (st : DirState) (p : PathL) : DirState :=
  ⟨p :: st.paths⟩

/-- Model of `utils.managed_tmp_dir`: in dry-run mode nothing is created;
otherwise the directory is created, the body runs, and the `finally`
clause removes the tree no matter how the body exited. -/
def managed_tmp_dir (path : PathL) (dry_run_flag : Bool)
    (body : DirState → DirState × RunOutcome) (st : DirState) :
    DirState × RunOutcome :=
  if dry_run_flag then body st
  else
    let stMk := mkdirp st path
    let r := body stMk
    (rmtree r.1 path, r.2)

/-! ## Filesystem effects of the executors (success path), and concrete
fixtures used by the claim witnesses -/

/-- Snapshot after `CopyService.run` executed `plans` (each `shutil.copy2`
creates the destination; sources are untouched). -/
def applyCopyPlans (fs : Snapshot) (plans : List CopyPlan) : Snapshot :=
  ⟨fs.files ++ plans.map fun p => p.dst⟩

/-- Snapshot after `RenameService.run` executed `plans`; despite its
name the service calls `shutil.copy2`, so the sources also remain. -/
def applyRenamePlans (fs : Snapshot) (plans : List RenamePlan) : Snapshot :=
  ⟨fs.files ++ plans.map fun p => p.dst⟩

/-- Oracle under which every I/O operation succeeds. -/
def allOkOracle : ExecOracle :=
  ⟨fun _ => true, fun _ => true, fun _ => true, fun _ => true⟩

/-- Oracle whose copy of `perm.mp4` raises (e.g. a permission error)
while everything else succeeds. -/
def failPermCopyOracle : ExecOracle :=
  ⟨fun _ => true, fun p => !(p.src == ["perm.mp4"]), fun _ => true, fun _ => true⟩

/-- Metadata-writer oracle under which ExifTool and ffmpeg both fail. -/
def bothWritersFailOracle : MetadataOracle :=
  ⟨fun _ => false, fun _ => false⟩

def demoCombinePlans : List CombinePlan :=
  [⟨["a-main.jpg"], ["a-overlay.png"], ["o", "a.jpg"], MemoryKind.image⟩,
   ⟨["b-main.mp4"], ["b-overlay.png"], ["o", "b.mp4"], MemoryKind.video⟩]

def demoRenamePlans : List RenamePlan :=
  [⟨["noext1"], ["o", "noext1.jpg"]⟩]

def demoCopyPlans : List CopyPlan :=
  [⟨["perm.mp4"], ["out", "perm.mp4"]⟩, ⟨["ok.mp4"], ["out", "ok.mp4"]⟩]

def demoZipPlans : List ExtractZipPlan :=
  [⟨["export.zip"], ["tmp"]⟩]

def demoFs : Snapshot :=
  ⟨[["loose.mp4"], ["noext"]]⟩

def demoEntries : List Entry :=
  [⟨["export.zip"], [], true⟩,
   ⟨["weird.jpg"], [0x50, 0x4B, 0x03, 0x04, 9], true⟩,
   ⟨["sub", "nested.zip"], [], true⟩,
   ⟨["plain.jpg"], [1, 2, 3, 4], true⟩,
   ⟨["dir.zip"], [], false⟩]

/-- Repair-step fixture: a mislabelled archive whose `.zip` destination
already exists, next to that very destination. -/
def demoFixEntries : List Entry :=
  [⟨["a.dat"], [0x50, 0x4B, 0x03, 0x04], true⟩, ⟨["a.zip"], [7], true⟩]

def demoMeta : MemoryMeta :=
  ⟨"abcdef01-2345-6789-abcd-ef0123456789", 1705329025, some 37, some (-122),
   MemoryKind.video⟩

def demoOutFile : OutFile :=
  ⟨"abcdef01-2345-6789-abcd-ef0123456789.mp4", 0⟩

/-- Output file whose identifier has no record in `demoTable`. -/
def demoOrphanFile : OutFile :=
  ⟨"ffffff99-9999-9999-9999-999999999999.jpg", 0⟩

def demoTable : List (String × MemoryMeta) :=
  [("abcdef01-2345-6789-abcd-ef0123456789", demoMeta)]

/-- Abstract image-writer used when instantiating the metadata theorems. -/
def demoImageProc : OutFile → MemoryMeta → OutFile × Bool :=
  fun f _ => (f, false)

/-- Relation between an entry's initial and current versions during the
`detect_and_fix_zip_files` loop: content and file-kind never change, and
the path either is the original or was re-extensioned from a non-`.zip`
name to a `.zip` name by the repair rename. -/
def Evolves (a b : Entry) : Prop :=
  a.content = b.content ∧ a.isFile = b.isFile ∧
    (b.path = a.path ∨ (isZipName a.path = false ∧ isZipName b.path = true))

/-- Invariant of the repair fold relative to the initial entry list:
entries evolve pointwise and current paths stay duplicate-free (no
rename ever lands on an occupied path). -/
def FixInv (init cur : List Entry) : Prop :=
  List.Forall₂ Evolves init cur ∧ (cur.map fun e => e.path).Nodup

/-! # Helper lemmas -/

theorem hexdash_mem (c : Char) (h : isHexDashChar c = true) :
    c ∈ "0123456789abcdefABCDEF-".data := by
  simpa [isHexDashChar, List.contains, List.elem_iff] using h

theorem toLower_hexdash {c : Char} (h : isHexDashChar c = true) :
    isHexDashChar c.toLower = true := by
  have hm := hexdash_mem c h
  fin_cases hm <;> decide

theorem toLower_idem_hexdash {c : Char} (h : isHexDashChar c = true) :
    c.toLower.toLower = c.toLower := by
  have hm := hexdash_mem c h
  fin_cases hm <;> decide

theorem lowerStr_append (a b : String) :
    lowerStr (a ++ b) = lowerStr a ++ lowerStr b :=
  congrArg String.mk (List.map_append _ _ _)

theorem matchUuidName_append_mp4 (l : List Char) (h36 : l.length = 36)
    (hall : l.all isHexDashChar = true) :
    matchUuidName ⟨l ++ ".mp4".data⟩ = some (⟨l⟩, "mp4") := by
  unfold matchUuidName
  simp only [List.length_append, h36, List.take_left' h36, List.drop_left' h36, hall]
  rw [if_neg (by decide)]
  simp

theorem all_hexdash_toLower (l : List Char) (hall : l.all isHexDashChar = true) :
    (l.map Char.toLower).all isHexDashChar = true := by
  rw [List.all_eq_true] at hall ⊢
  intro c hc
  rcases List.mem_map.1 hc with ⟨a, ha, rfl⟩
  exact toLower_hexdash (hall a ha)

theorem metadataLookupKey_mp4 (u : String) (h36 : u.data.length = 36)
    (hall : u.data.all isHexDashChar = true) :
    metadataLookupKey (u ++ ".mp4") = some (lowerStr u, "mp4") := by
  have hl : lowerStr (u ++ ".mp4") = ⟨u.data.map Char.toLower ++ ".mp4".data⟩ := by
    rw [lowerStr_append]; rfl
  have hm := matchUuidName_append_mp4 (u.data.map Char.toLower)
    (by simp [h36]) (all_hexdash_toLower _ hall)
  rw [metadataLookupKey, hl, hm]
  have hidem : lowerStr ⟨u.data.map Char.toLower⟩ = lowerStr u := by
    apply congrArg String.mk
    show (u.data.map Char.toLower).map Char.toLower = u.data.map Char.toLower
    rw [List.map_map]
    apply List.map_congr_left
    intro a ha
    exact toLower_idem_hexdash (by rw [List.all_eq_true] at hall; exact hall a ha)
  simp [hidem]

/-! # Claim theorems -/

/-- Claim C4, counterexample: `split_uuid_and_ext` does not lower-case
the identifier.  On `"ABCfoo-main.jpg"` it returns `"ABCfoo"` (only the
extension is lower-cased), not the lower-cased `"abcfoo"` the claim
asserts it compares equal to under one uniform casing rule at this
function. -/
theorem split_uuid_and_ext_keeps_case :
    split_uuid_and_ext "ABCfoo-main.jpg" = ("ABCfoo", ".jpg") ∧
      ("ABCfoo" : String) ≠ "abcfoo" := by
  decide

/-- Claim C4 (amended): `split_uuid_and_ext` lower-cases only the
extension and preserves the identifier's casing; case-insensitivity of
the metadata join instead comes from `apply_metadata_to_outputs`, which
lower-cases the whole output filename before matching, so the lookup key
for an output named `<ID>.mp4` is the lower-cased identifier. -/
theorem split_uuid_case_and_lookup_key :
    split_uuid_and_ext "ABCfoo-main.jpg" = ("ABCfoo", ".jpg") ∧
      (∀ u : String, u.data.length = 36 → u.data.all isHexDashChar = true →
        metadataLookupKey (u ++ ".mp4") = some (lowerStr u, "mp4")) :=
  ⟨by decide, fun u h36 hall => metadataLookupKey_mp4 u h36 hall⟩

/-- Witness for C4's amended theorem at a concrete upper-case identifier. -/
theorem split_uuid_case_and_lookup_key_witness :
    metadataLookupKey ("ABCDEF01-2345-6789-ABCD-EF0123456789" ++ ".mp4") =
      some (lowerStr "ABCDEF01-2345-6789-ABCD-EF0123456789", "mp4") :=
  split_uuid_case_and_lookup_key.2 "ABCDEF01-2345-6789-ABCD-EF0123456789"
    (by decide) (by decide)

/-- Claim C8: the managed scratch directory is absent once
`managed_tmp_dir` returns, for every body — including bodies that raise
or are interrupted (the outcome passes through unchanged while the
`finally` removal runs): no path at or below the managed path survives. -/
theorem managed_tmp_dir_cleanup (p : PathL) (body : DirState → DirState × RunOutcome)
    (st : DirState) (q : PathL) (hq : p.isPrefixOf q = true) :
    q ∉ (managed_tmp_dir p false body st).1.paths ∧
      (managed_tmp_dir p false body st).2 = (body (mkdirp st p)).2 := by
  refine ⟨fun hmem => ?_, rfl⟩
  simp only [managed_tmp_dir, Bool.false_eq_true, if_false, rmtree,
    List.mem_filter, hq] at hmem
  simp at hmem

/-- Witness for C8: a body that creates a file inside the scratch
directory and is then interrupted; the file is gone afterwards. -/
theorem managed_tmp_dir_cleanup_witness :
    ["tmp", "x"] ∉ (managed_tmp_dir ["tmp"] false
        (fun s => (⟨["tmp", "x"] :: s.paths⟩, RunOutcome.interrupted)) ⟨[]⟩).1.paths :=
  (managed_tmp_dir_cleanup ["tmp"]
    (fun s => (⟨["tmp", "x"] :: s.paths⟩, RunOutcome.interrupted)) ⟨[]⟩
    ["tmp", "x"] (by decide)).1

theorem zipRunAux_all_ok (orc : ExecOracle) (plans : List ExtractZipPlan)
    (h : ∀ p ∈ plans, orc.zipOk p = true) :
    ∀ c, ZipService.runAux orc c plans = Except.ok (c + plans.length) := by
  induction plans with
  | nil => intro c; simp [ZipService.runAux]
  | cons p rest ih =>
    intro c
    have hp : orc.zipOk p = true := h p (List.mem_cons_self p rest)
    have ih' := ih (fun q hq => h q (List.mem_cons_of_mem p hq)) (c + 1)
    simp [ZipService.runAux, hp, ih']
    omega

/-- Claim C10: for a non-empty plan list, `ZipService.run` returns 0 in
dry mode but the number of plans in real mode (when every archive is
readable); the preview count for the extraction phase instead comes from
`DryRunSimulator.simulate_extract_zips`, which reports `len(plans)`. -/
theorem zip_dry_run_count_split (orc : ExecOracle) (plans : List ExtractZipPlan)
    (hne : plans ≠ []) :
    ZipService.run orc plans true = Except.ok 0 ∧
      ((∀ p ∈ plans, orc.zipOk p = true) →
        ZipService.run orc plans false = Except.ok plans.length) ∧
      DryRunSimulator.simulate_extract_zips plans = plans.length := by
  have hne' : plans.isEmpty = false := by
    cases plans with
    | nil => exact absurd rfl hne
    | cons a l => rfl
  refine ⟨by simp [ZipService.run, hne'], fun hall => ?_,
    by simp [DryRunSimulator.simulate_extract_zips, hne']⟩
  have h := zipRunAux_all_ok orc plans hall 0
  simpa [ZipService.run, hne'] using h

/-- Witness for C10 with one extraction plan: dry mode reports 0, real
mode reports 1, the simulator reports 1. -/
theorem zip_dry_run_count_split_witness :
    ZipService.run allOkOracle demoZipPlans true = Except.ok 0 ∧
      ZipService.run allOkOracle demoZipPlans false = Except.ok 1 ∧
      DryRunSimulator.simulate_extract_zips demoZipPlans = 1 := by
  have h := zip_dry_run_count_split allOkOracle demoZipPlans (by decide)
  exact ⟨h.1, h.2.1 (by intro p _; rfl), h.2.2⟩

theorem rename_foldl_count (orc : ExecOracle) :
    ∀ (l : List RenamePlan) (a : Nat),
      l.foldl (fun done p => if orc.renameOk p then done + 1 else done) a
        = a + (l.filter fun p => orc.renameOk p).length := by
  intro l
  induction l with
  | nil => intro a; simp
  | cons p rest ih =>
    intro a
    by_cases hp : orc.renameOk p = true
    · simp [List.foldl_cons, hp, ih, Nat.add_assoc, Nat.add_comm 1]
    · simp [List.foldl_cons, Bool.eq_false_iff.2 hp, ih]

/-- Claim C2: given the same plan lists, the counts reported by the dry
path equal those of the real path: `CombineService.run` reports the same
`(images, videos)` pair in dry mode as in any real run that returns
(both equal the simulator's pair), and for renames the real count equals
the dry count whenever no per-item `OSError` occurs (failures are the
subject of C3, not snapshot-determined divergence). -/
theorem dry_real_counts_agree (orc : ExecOracle) (cplans : List CombinePlan)
    (rplans : List RenamePlan) :
    CombineService.run orc cplans true
        = Except.ok (DryRunSimulator.simulate_combine_files cplans) ∧
      (∀ c, CombineService.run orc cplans false = Except.ok c →
        c = DryRunSimulator.simulate_combine_files cplans) ∧
      ((∀ p ∈ rplans, orc.renameOk p = true) →
        RenameService.run orc rplans false = RenameService.run orc rplans true ∧
          DryRunSimulator.simulate_rename_files rplans
            = RenameService.run orc rplans true) := by
  refine ⟨?_, ?_, ?_⟩
  · cases hE : cplans.isEmpty <;>
      simp [CombineService.run, DryRunSimulator.simulate_combine_files, hE]
  · intro c hc
    cases hE : cplans.isEmpty
    · rw [CombineService.run, if_neg (by simp [hE])] at hc
      simp only [Bool.false_eq_true, if_false] at hc
      cases hf : ((cplans.filter fun p => p.kind == MemoryKind.image)
          ++ cplans.filter fun p => p.kind == MemoryKind.video).find?
            (fun p => !orc.combineOk p) with
      | some p => rw [hf] at hc; exact absurd hc (by simp)
      | none =>
        rw [hf] at hc
        simp only [Except.ok.injEq] at hc
        simp [DryRunSimulator.simulate_combine_files, hE, ← hc]
    · rw [CombineService.run, if_pos (by simp [hE])] at hc
      simp only [Except.ok.injEq] at hc
      simp [DryRunSimulator.simulate_combine_files, hE, ← hc]
  · intro hall
    have hfold := rename_foldl_count orc rplans 0
    have hfilter : (rplans.filter fun p => orc.renameOk p) = rplans :=
      List.filter_eq_self.2 hall
    cases hE : rplans.isEmpty
    · constructor
      · simp [RenameService.run, hE, hfold, hfilter]
      · simp [DryRunSimulator.simulate_rename_files, RenameService.run, hE]
    · constructor
      · simp [RenameService.run, hE]
      · simp [DryRunSimulator.simulate_rename_files, RenameService.run, hE]

/-- Witness for C2: one image plan and one video plan, one rename plan,
all operations succeeding. -/
theorem dry_real_counts_agree_witness :
    CombineService.run allOkOracle demoCombinePlans true = Except.ok (1, 1) ∧
      (1, 1) = DryRunSimulator.simulate_combine_files demoCombinePlans ∧
      RenameService.run allOkOracle demoRenamePlans false
        = RenameService.run allOkOracle demoRenamePlans true := by
  have h := dry_real_counts_agree allOkOracle demoCombinePlans demoRenamePlans
  refine ⟨?_, h.2.1 (1, 1) (by rfl), (h.2.2 (by intro p _; rfl)).1⟩
  have h1 := h.1
  have : DryRunSimulator.simulate_combine_files demoCombinePlans = (1, 1) := by decide
  rw [this] at h1
  exact h1

/-- Claim C3, counterexample: copy failures are not swallowed.  With two
copy plans whose first raises a permission error, `CopyService.run`
propagates the exception: it returns no success count at all and never
reaches the second plan, contradicting the claimed tolerant per-item
policy for copy. -/
theorem copy_failure_propagates :
    CopyService.run failPermCopyOracle demoCopyPlans false
        = Except.error ⟨["perm.mp4"], ["out", "perm.mp4"]⟩ ∧
      (CopyService.run failPermCopyOracle demoCopyPlans false).isOk = false :=
  ⟨rfl, rfl⟩

theorem copyRunAux_isOk (orc : ExecOracle) :
    ∀ (l : List CopyPlan) (a : Nat),
      (CopyService.runAux orc a l).isOk = true ↔ ∀ p ∈ l, orc.copyOk p = true := by
  intro l
  induction l with
  | nil => intro a; simp [CopyService.runAux, Except.isOk, Except.toBool]
  | cons p rest ih =>
    intro a
    by_cases hp : orc.copyOk p = true
    · simp [CopyService.runAux, hp, ih (a + 1)]
    · have he : CopyService.runAux orc a (p :: rest) = Except.error p := by
        simp [CopyService.runAux, Bool.eq_false_iff.2 hp]
      rw [he]
      simp [Except.isOk, Except.toBool]
      exact fun h => absurd h hp

theorem mem_filter_kind_append (plans : List CombinePlan) (p : CombinePlan) :
    (p ∈ (plans.filter fun q => q.kind == MemoryKind.image)
        ++ plans.filter fun q => q.kind == MemoryKind.video) ↔ p ∈ plans := by
  simp only [List.mem_append, List.mem_filter]
  constructor
  · rintro (⟨h, _⟩ | ⟨h, _⟩) <;> exact h
  · intro h
    cases hk : p.kind
    · exact Or.inl ⟨h, rfl⟩
    · exact Or.inr ⟨h, rfl⟩

theorem combineRun_isOk_iff (orc : ExecOracle) (plans : List CombinePlan) :
    (CombineService.run orc plans false).isOk = false ↔
      ∃ p ∈ plans, orc.combineOk p = false := by
  cases hE : plans.isEmpty
  case true =>
    have hnil : plans = [] := List.isEmpty_iff.1 hE
    subst hnil
    simp [CombineService.run, Except.isOk, Except.toBool]
  case false =>
    rw [CombineService.run]
    simp only [hE, Bool.false_eq_true, if_false]
    cases hf : ((plans.filter fun q => q.kind == MemoryKind.image)
        ++ plans.filter fun q => q.kind == MemoryKind.video).find?
          (fun p => !orc.combineOk p) with
    | some p =>
      simp only [Except.isOk, Except.toBool, true_iff]
      refine ⟨p, (mem_filter_kind_append plans p).1 (List.mem_of_find?_eq_some hf), ?_⟩
      have hfp := List.find?_some hf
      simpa using hfp
    | none =>
      simp only [Except.isOk, Except.toBool]
      refine ⟨fun h => absurd h (by decide), ?_⟩
      rintro ⟨p, hp, hok⟩
      have hnone := List.find?_eq_none.1 hf p ((mem_filter_kind_append plans p).2 hp)
      simp [hok] at hnone

/-- Claim C3 (amended): the per-item-tolerant side of the asymmetry is
only the rename service: `RenameService.run` swallows each failing item
(the returned count is the number of succeeding items, every item is
attempted), while a failing copy propagates out of `CopyService.run`
(aborting the remaining copy plans) exactly as a failing composition
task propagates out of `CombineService.run`'s wait-and-collect step and
terminates the composition phase. -/
theorem failure_policy_asymmetry (orc : ExecOracle) (rplans : List RenamePlan)
    (cplans : List CopyPlan) (bplans : List CombinePlan) :
    RenameService.run orc rplans false
        = (rplans.filter fun p => orc.renameOk p).length ∧
      ((CopyService.run orc cplans false).isOk = true ↔
        ∀ p ∈ cplans, orc.copyOk p = true) ∧
      ((CombineService.run orc bplans false).isOk = false ↔
        ∃ p ∈ bplans, orc.combineOk p = false) := by
  refine ⟨?_, ?_, combineRun_isOk_iff orc bplans⟩
  · cases hE : rplans.isEmpty
    · simp [RenameService.run, hE, rename_foldl_count orc rplans 0]
    · have hnil : rplans = [] := List.isEmpty_iff.1 hE
      subst hnil
      simp [RenameService.run]
  · cases hE : cplans.isEmpty
    · simp [CopyService.run, hE, copyRunAux_isOk orc cplans 0]
    · have hnil : cplans = [] := List.isEmpty_iff.1 hE
      subst hnil
      simp [CopyService.run, Except.isOk, Except.toBool]

/-- Witness for C3's amended theorem: under an oracle failing the first
copy, the rename service still reports its per-item count while the copy
service does not return a count at all. -/
theorem failure_policy_asymmetry_witness :
    RenameService.run failPermCopyOracle demoRenamePlans false = 1 ∧
      (CopyService.run failPermCopyOracle demoCopyPlans false).isOk = false := by
  have h := failure_policy_asymmetry failPermCopyOracle demoRenamePlans demoCopyPlans []
  refine ⟨by simpa using h.1, ?_⟩
  cases hv : (CopyService.run failPermCopyOracle demoCopyPlans false).isOk
  · rfl
  · have hall := h.2.1.1 hv
    have : failPermCopyOracle.copyOk ⟨["perm.mp4"], ["out", "perm.mp4"]⟩ = true :=
      hall _ (by decide)
    exact absurd this (by decide)

/-- Claim C9: during reconciliation, every output MP4 whose (lower-cased)
name matches `<identifier>[_combined].mp4` and whose identifier has a
Memory Record gets its modification time set to the record's captured-at
timestamp even when both metadata writers (ExifTool and the ffmpeg
container rewrite) fail — and it is then not counted as tagged; every
output file whose name yields no record (no pattern match, or identifier
absent from the table) is skipped untouched, without being treated as an
error. -/
theorem metadata_mtime_and_skip (orc : MetadataOracle)
    (imageProc : OutFile → MemoryMeta → OutFile × Bool)
    (table : List (String × MemoryMeta)) (files : List OutFile) (f : OutFile) :
    (∀ u m, metadataLookupKey f.name = some (u, "mp4") →
      lookupMeta table u = some m →
      orc.exiftoolOk f = false → orc.ffmpegOk f = false →
      metadataFileStep orc imageProc table f
          = ({ f with mtime := m.saved_at_utc }, false, false) ∧
        (f ∈ files →
          { f with mtime := m.saved_at_utc }
            ∈ (apply_metadata_to_outputs orc imageProc table files).1)) ∧
      ((∀ u e, metadataLookupKey f.name = some (u, e) → lookupMeta table u = none) →
        metadataFileStep orc imageProc table f = (f, false, false) ∧
          (f ∈ files → f ∈ (apply_metadata_to_outputs orc imageProc table files).1)) := by
  constructor
  · intro u m hk hm hex hff
    have hstep : metadataFileStep orc imageProc table f
        = ({ f with mtime := m.saved_at_utc }, false, false) := by
      rw [metadataFileStep, hk]
      simp only [hm]
      simp [process_single_file_metadata, hex, hff]
    refine ⟨hstep, fun hf => ?_⟩
    have := List.mem_map_of_mem
      (fun x => (metadataFileStep orc imageProc table x).1) hf
    simp only [hstep] at this
    simpa [apply_metadata_to_outputs, List.map_map] using this
  · intro hnone
    have hstep : metadataFileStep orc imageProc table f = (f, false, false) := by
      rw [metadataFileStep]
      cases hk : metadataLookupKey f.name with
      | none => rfl
      | some ue =>
        have := hnone ue.1 ue.2 (by rw [hk])
        simp [this]
    refine ⟨hstep, fun hf => ?_⟩
    have := List.mem_map_of_mem
      (fun x => (metadataFileStep orc imageProc table x).1) hf
    simp only [hstep] at this
    simpa [apply_metadata_to_outputs, List.map_map] using this

/-- Witness for C9: a matched MP4 output with both writers failing still
gets its mtime updated; an output with no record is returned untouched. -/
theorem metadata_mtime_and_skip_witness :
    metadataFileStep bothWritersFailOracle demoImageProc demoTable demoOutFile
        = ({ demoOutFile with mtime := demoMeta.saved_at_utc }, false, false) ∧
      metadataFileStep bothWritersFailOracle demoImageProc demoTable demoOrphanFile
        = (demoOrphanFile, false, false) := by
  constructor
  · exact ((metadata_mtime_and_skip bothWritersFailOracle demoImageProc demoTable []
      demoOutFile).1 "abcdef01-2345-6789-abcd-ef0123456789" demoMeta
      (by decide) (by decide) rfl rfl).1
  · refine ((metadata_mtime_and_skip bothWritersFailOracle demoImageProc demoTable []
      demoOrphanFile).2 ?_).1
    intro u e hk
    have he : metadataLookupKey demoOrphanFile.name
        = some ("ffffff99-9999-9999-9999-999999999999", "jpg") := by decide
    rw [he] at hk
    simp only [Option.some.injEq, Prod.mk.injEq] at hk
    obtain ⟨h1, _⟩ := hk
    subst h1
    decide

theorem length_filter_filterMap_zero {α β κ : Type} [DecidableEq κ]
    (key : α → κ) (pkey : β → κ) (g : α → Option β)
    (hg : ∀ a p, g a = some p → pkey p = key a) (k : κ) :
    ∀ l : List α, (∀ b ∈ l, key b ≠ k) →
      ((l.filterMap g).filter fun p => decide (pkey p = k)).length = 0 := by
  intro l
  induction l with
  | nil => intro _; rfl
  | cons a t ih =>
    intro hne
    have ih' := ih fun b hb => hne b (List.mem_cons_of_mem a hb)
    cases hga : g a with
    | none => simpa [List.filterMap_cons, hga] using ih'
    | some p =>
      have hpk : pkey p = key a := hg a p hga
      have : decide (pkey p = k) = false := by
        simp [hpk]
        exact hne a (List.mem_cons_self a t)
      simpa [List.filterMap_cons, hga, List.filter_cons, this] using ih'

theorem length_filter_filterMap {α β κ : Type} [DecidableEq κ]
    (key : α → κ) (pkey : β → κ) (g : α → Option β)
    (hg : ∀ a p, g a = some p → pkey p = key a) :
    ∀ l : List α, (l.map key).Nodup → ∀ m ∈ l,
      ((l.filterMap g).filter fun p => decide (pkey p = key m)).length
        = if (g m).isSome then 1 else 0 := by
  intro l
  induction l with
  | nil => intro _ m hm; exact absurd hm (List.not_mem_nil m)
  | cons a t ih =>
    intro hnd m hm
    have hnd' : (t.map key).Nodup := (List.nodup_cons.1 (by simpa using hnd)).2
    have hka : key a ∉ t.map key := (List.nodup_cons.1 (by simpa using hnd)).1
    rcases List.mem_cons.1 hm with rfl | hmt
    · have hzero := length_filter_filterMap_zero key pkey g hg (key m) t
        (fun b hb hbk => hka (hbk ▸ List.mem_map_of_mem key hb))
      cases hgm : g m with
      | none => simpa [List.filterMap_cons, hgm] using hzero
      | some p =>
        have hpk : pkey p = key m := hg m p hgm
        simpa [List.filterMap_cons, hgm, List.filter_cons, hpk] using hzero
    · have hkam : key a ≠ key m := by
        intro hEq
        exact hka (hEq ▸ List.mem_map_of_mem key hmt)
      have ih' := ih hnd' m hmt
      cases hga : g a with
      | none => simpa [List.filterMap_cons, hga] using ih'
      | some p =>
        have hpk : pkey p = key a := hg a p hga
        have hdec : decide (pkey p = key m) = false := by
          simp [hpk]
          exact hkam
        simpa [List.filterMap_cons, hga, List.filter_cons, hdec] using ih'

theorem combineStep_main_path (fs : Snapshot) (o a : PathL) (p : CombinePlan)
    (h : combineStep fs o a = some p) : p.main_path = a := by
  simp only [combineStep] at h
  split_ifs at h <;> cases h <;> rfl

theorem combineStep_isSome (fs : Snapshot) (o m : PathL) :
    (combineStep fs o m).isSome =
      (pathExists fs (dirOf m ++ [(split_uuid_and_ext (nameOf m)).1 ++ "-overlay.png"])
        && (IMAGE_EXTS.contains (split_uuid_and_ext (nameOf m)).2
            || ((split_uuid_and_ext (nameOf m)).2 == ".mp4"))) := by
  simp only [combineStep]
  cases hpe : pathExists fs
      (dirOf m ++ [(split_uuid_and_ext (nameOf m)).1 ++ "-overlay.png"]) <;>
    cases hc : IMAGE_EXTS.contains (split_uuid_and_ext (nameOf m)).2 <;>
      cases hmp : ((split_uuid_and_ext (nameOf m)).2 == ".mp4") <;>
        simp [hpe, hc, hmp]

/-- Claim C1, counterexample: a main file with a non-media extension and
a present matching sibling overlay yields no plan.  In this snapshot
`x-main.txt` is enumerated as a main file and `x-overlay.png` exists in
its directory, yet `plan_filesystem_combinations` emits nothing,
refuting the claimed `plan exists ⇔ overlay exists`. -/
theorem plan_combinations_skips_nonmedia :
    ["x-main.txt"] ∈ enumerate_main_files ⟨[["x-main.txt"], ["x-overlay.png"]]⟩ [] ∧
      pathExists ⟨[["x-main.txt"], ["x-overlay.png"]]⟩ ["x-overlay.png"] = true ∧
      plan_filesystem_combinations ⟨[["x-main.txt"], ["x-overlay.png"]]⟩ [] ["o"] = [] := by
  decide

/-- Claim C1 (amended): on a duplicate-free snapshot,
`plan_filesystem_combinations` emits exactly one plan for a main file
`m` iff the sibling `<identifier>-overlay.png` exists AND `m`'s
lower-cased extension is recognized (`.jpg`/`.jpeg`/`.png` or `.mp4`),
and zero plans otherwise — in particular zero whenever the overlay is
missing. -/
theorem plan_combinations_count (fs : Snapshot) (s o m : PathL)
    (hnd : fs.files.Nodup) (hm : m ∈ enumerate_main_files fs s) :
    ((plan_filesystem_combinations fs s o).filter
        fun p => decide (p.main_path = m)).length
      = if pathExists fs (dirOf m ++ [(split_uuid_and_ext (nameOf m)).1 ++ "-overlay.png"])
            && (IMAGE_EXTS.contains (split_uuid_and_ext (nameOf m)).2
                || ((split_uuid_and_ext (nameOf m)).2 == ".mp4"))
          then 1 else 0 := by
  have hnd2 : (enumerate_main_files fs s).Nodup := List.Nodup.filter _ hnd
  have hndm : ((enumerate_main_files fs s).map (fun x : PathL => x)).Nodup := by
    simpa [List.map_id'] using hnd2
  have h := length_filter_filterMap (fun x : PathL => x) CombinePlan.main_path
    (combineStep fs o) (fun a p hp => combineStep_main_path fs o a p hp)
    (enumerate_main_files fs s) hndm m hm
  simpa [plan_filesystem_combinations, combineStep_isSome fs o m] using h

/-- Witness for C1's amended theorem: with the overlay present and a
`.jpg` main file, exactly one plan is emitted for it. -/
theorem plan_combinations_count_witness :
    ((plan_filesystem_combinations ⟨[["a-main.jpg"], ["a-overlay.png"]]⟩ [] ["o"]).filter
        fun p => decide (p.main_path = ["a-main.jpg"])).length = 1 := by
  have h := plan_combinations_count ⟨[["a-main.jpg"], ["a-overlay.png"]]⟩ [] ["o"]
    ["a-main.jpg"] (by decide) (by decide)
  exact h.trans (by decide)

theorem zipEntryStep_path (folder : PathL) (e : Entry) (z : PathL)
    (h : zipEntryStep folder e = some z) : z = e.path := by
  simp only [zipEntryStep] at h
  split_ifs at h <;> cases h <;> rfl

theorem zipEntryStep_isSome (folder : PathL) (e : Entry) :
    (zipEntryStep folder e).isSome =
      ((dirOf e.path == folder) && e.isFile
        && ((lowerStr (pySuffix (nameOf e.path)) == ".zip")
            || (e.content.take 4 == zipSig))) := by
  simp only [zipEntryStep]
  cases h1 : (dirOf e.path == folder) <;> cases h2 : e.isFile <;>
    cases h3 : (lowerStr (pySuffix (nameOf e.path)) == ".zip") <;>
      cases h4 : (e.content.take 4 == zipSig) <;> simp [h1, h2, h3, h4]

/-- Claim C6: with duplicate-free paths, `plan_zip_extractions` emits
exactly one plan for an entry iff it is an immediate child of the source
root, is a regular file, and either carries a (case-insensitive) `.zip`
extension or starts with the four ZIP signature bytes; anything else —
in particular archives nested in subdirectories — contributes zero
plans. -/
theorem plan_zip_extractions_count (fs : List Entry) (folder dest : PathL) (e : Entry)
    (hnd : (fs.map Entry.path).Nodup) (he : e ∈ fs) :
    ((plan_zip_extractions fs folder dest).filter
        fun pl => decide (pl.zip_path = e.path)).length
      = if (dirOf e.path == folder) && e.isFile
            && ((lowerStr (pySuffix (nameOf e.path)) == ".zip")
                || (e.content.take 4 == zipSig))
          then 1 else 0 := by
  have hplan : plan_zip_extractions fs folder dest
      = fs.filterMap fun x =>
          (zipEntryStep folder x).map fun z => ExtractZipPlan.mk z dest := by
    rw [plan_zip_extractions, find_zip_files_top_level, List.map_filterMap]
  have hg : ∀ a p,
      ((zipEntryStep folder a).map fun z => ExtractZipPlan.mk z dest) = some p →
        p.zip_path = a.path := by
    intro a p hp
    cases hz : zipEntryStep folder a with
    | none => rw [hz] at hp; cases hp
    | some z =>
      rw [hz] at hp
      cases hp
      exact zipEntryStep_path folder a z hz
  have h := length_filter_filterMap Entry.path ExtractZipPlan.zip_path
    (fun x => (zipEntryStep folder x).map fun z => ExtractZipPlan.mk z dest)
    hg fs hnd e he
  rw [hplan]
  have hsome : ((zipEntryStep folder e).map fun z => ExtractZipPlan.mk z dest).isSome
      = (zipEntryStep folder e).isSome := by
    cases zipEntryStep folder e <;> rfl
  simpa [hsome, zipEntryStep_isSome folder e] using h

/-- Witness for C6: the root-level `.zip` gets exactly one plan; the
archive nested under `sub/` gets zero. -/
theorem plan_zip_extractions_count_witness :
    ((plan_zip_extractions demoEntries [] ["tmp"]).filter
        fun pl => decide (pl.zip_path = ["export.zip"])).length = 1 ∧
      ((plan_zip_extractions demoEntries [] ["tmp"]).filter
        fun pl => decide (pl.zip_path = ["sub", "nested.zip"])).length = 0 := by
  constructor
  · exact (plan_zip_extractions_count demoEntries [] ["tmp"]
      ⟨["export.zip"], [], true⟩ (by decide) (by decide)).trans (by decide)
  · exact (plan_zip_extractions_count demoEntries [] ["tmp"]
      ⟨["sub", "nested.zip"], [], true⟩ (by decide) (by decide)).trans (by decide)

theorem hasInfix_of_mem {a : Char} : ∀ {l : List Char}, a ∈ l → hasInfix [a] l = true := by
  intro l h
  induction l with
  | nil => cases h
  | cons c cs ih =>
    rw [hasInfix]
    rcases List.mem_cons.1 h with rfl | h2
    · simp [List.isPrefixOf]
    · simp [ih h2]

theorem nameOf_concat (l : PathL) (x : String) : nameOf (l ++ [x]) = x := by
  simp [nameOf]

theorem pathExists_iff (fs : Snapshot) (p : PathL) :
    pathExists fs p = true ↔ p ∈ fs.files := by
  simp [pathExists, List.contains, List.elem_iff]

theorem renameStep_concat_jpg_none (s d : PathL) (k : Option PathL)
    (A : PathL) (y : String) :
    renameStep s d k (A ++ [y ++ ".jpg"]) = none := by
  have hname : nameOf (A ++ [y ++ ".jpg"]) = y ++ ".jpg" := nameOf_concat A _
  have hdot : containsSub (y ++ ".jpg") "." = true := by
    apply hasInfix_of_mem
    show '.' ∈ (y ++ ".jpg").data
    rw [String.data_append]
    exact List.mem_append_of_mem_right _ (by decide)
  simp [renameStep, hname, hdot]

theorem renameStep_some {s d : PathL} {k : Option PathL} {src : PathL} {pl : RenamePlan}
    (h : renameStep s d k src = some pl) :
    pl.dst = (d ++ (src.drop s.length).dropLast) ++ [pyStem (nameOf src) ++ ".jpg"] := by
  simp only [renameStep] at h
  split_ifs at h
  cases h
  simp [List.append_assoc]

theorem copyCandidate_some {i o src : PathL} {pl : CopyPlan}
    (h : copyCandidate i o src = some pl) :
    pl.src = src ∧ pl.dst = o ++ src.drop i.length ∧
      is_within_path (dirOf src) i = true ∧
      should_skip_dir (dirOf src) i o = false ∧
      strEndsWith (lowerStr (nameOf src)) VIDEO_EXT = true := by
  simp only [copyCandidate] at h
  split_ifs at h with h1 h2 h3 h4
  cases h
  simp only [Bool.not_eq_true] at h1 h2 h3
  refine ⟨rfl, rfl, ?_, ?_, ?_⟩
  · simpa using h1
  · simpa using h2
  · simpa using h3

theorem plan_copy_mem {fs : Snapshot} {i o : PathL} {pl : CopyPlan} :
    pl ∈ plan_copy_standalone_mp4s fs i o ↔
      ∃ src ∈ fs.files, copyCandidate i o src = some pl ∧
        pathExists fs pl.dst = false := by
  rw [plan_copy_standalone_mp4s, List.mem_filterMap]
  constructor
  · rintro ⟨src, hsrc, hsome⟩
    refine ⟨src, hsrc, ?_⟩
    cases hc : copyCandidate i o src with
    | none => rw [hc] at hsome; cases hsome
    | some pl' =>
      rw [hc] at hsome
      dsimp only at hsome
      by_cases hpe : pathExists fs pl'.dst = true
      · rw [if_pos hpe] at hsome; cases hsome
      · rw [if_neg hpe] at hsome
        cases hsome
        exact ⟨rfl, Bool.not_eq_true _ ▸ hpe⟩
  · rintro ⟨src, hsrc, hc, hpe⟩
    refine ⟨src, hsrc, ?_⟩
    rw [hc]
    dsimp only
    rw [hpe]
    simp

theorem plan_copy_second_run_empty (fs : Snapshot) (i o : PathL)
    (h : is_within_path i o = false ∨ i = o) :
    plan_copy_standalone_mp4s
      (applyCopyPlans fs (plan_copy_standalone_mp4s fs i o)) i o = [] := by
  rw [plan_copy_standalone_mp4s, List.filterMap_eq_nil_iff]
  intro src hsrc
  have hsrc' : src ∈ fs.files
      ++ (plan_copy_standalone_mp4s fs i o).map (fun p => p.dst) := hsrc
  rcases List.mem_append.1 hsrc' with hold | hnew
  · cases hc : copyCandidate i o src with
    | none => simp [hc]
    | some pl =>
      have hex : pathExists (applyCopyPlans fs (plan_copy_standalone_mp4s fs i o))
          pl.dst = true := by
        by_cases hpe : pathExists fs pl.dst = true
        · exact (pathExists_iff _ _).2
            (List.mem_append_of_mem_left _ ((pathExists_iff _ _).1 hpe))
        · have hpl : pl ∈ plan_copy_standalone_mp4s fs i o :=
            plan_copy_mem.2 ⟨src, hold, hc, Bool.not_eq_true _ ▸ hpe⟩
          exact (pathExists_iff _ _).2
            (List.mem_append_of_mem_right _
              (List.mem_map_of_mem (fun p => p.dst) hpl))
      dsimp only
      simp [hex]
  · rcases List.mem_map.1 hnew with ⟨pl0, hpl0, rfl⟩
    rcases plan_copy_mem.1 hpl0 with ⟨s0, hs0, hc0, hpe0⟩
    obtain ⟨hplsrc, hpldst, hwithin, hskip, hends⟩ := copyCandidate_some hc0
    have hs0ne : s0 ≠ [] := by
      intro hnil
      rw [hnil] at hends
      revert hends
      decide
    have hpref_dir : i <+: dirOf s0 := List.isPrefixOf_iff_prefix.1 hwithin
    have hpref : i <+: s0 := hpref_dir.trans (List.dropLast_prefix s0)
    have hlen : i.length < s0.length := by
      have h1 := hpref_dir.length_le
      have h2 : (dirOf s0).length = s0.length - 1 := by
        simp [dirOf, List.length_dropLast]
      have h3 : 0 < s0.length := List.length_pos.2 hs0ne
      omega
    have hrelne : s0.drop i.length ≠ [] := by
      have hld := List.length_drop i.length s0
      intro hn
      rw [hn] at hld
      simp at hld
      omega
    rcases h with h2 | hEq
    · rcases List.eq_nil_or_concat (s0.drop i.length) with hn | ⟨L, b, hLB⟩
      · exact absurd hn hrelne
      have hdir : dirOf pl0.dst = o ++ L := by
        rw [hpldst, hLB, List.concat_eq_append, ← List.append_assoc]
        simp [dirOf]
      by_cases hio : i <+: o
      · have h1 : is_within_path o i = true := by
          rw [is_within_path]; exact List.isPrefixOf_iff_prefix.2 hio
        have h2' : is_within_path (o ++ L) o = true := by
          rw [is_within_path]
          exact List.isPrefixOf_iff_prefix.2 (List.prefix_append o L)
        have hskip' : should_skip_dir (dirOf pl0.dst) i o = true := by
          rw [should_skip_dir, hdir, h1, h2']
          rfl
        cases hc : copyCandidate i o pl0.dst with
        | none => simp [hc]
        | some pl1 =>
          obtain ⟨_, _, _, hskip1, _⟩ := copyCandidate_some hc
          rw [hskip'] at hskip1
          cases hskip1
      · cases hc : copyCandidate i o pl0.dst with
        | none => simp [hc]
        | some pl1 =>
          obtain ⟨_, _, hwithin1, _, _⟩ := copyCandidate_some hc
          exfalso
          have hpd : i <+: dirOf pl0.dst := List.isPrefixOf_iff_prefix.1 hwithin1
          rw [hdir] at hpd
          have ho : o <+: o ++ L := List.prefix_append o L
          rcases List.prefix_or_prefix_of_prefix hpd ho with hio' | hoi
          · exact hio hio'
          · have hcontra : is_within_path i o = true := by
              rw [is_within_path]; exact List.isPrefixOf_iff_prefix.2 hoi
            rw [h2] at hcontra
            cases hcontra
    · subst hEq
      have hds : pl0.dst = s0 := by
        rw [hpldst]
        exact List.prefix_iff_eq_append.1 hpref
      rw [hds] at hpe0
      have hps : pathExists fs s0 = true := (pathExists_iff _ _).2 hs0
      rw [hps] at hpe0
      cases hpe0

theorem plan_rename_second_run (fs : Snapshot) (s d : PathL) (k : Option PathL) :
    plan_unlabeled_renames (applyRenamePlans fs (plan_unlabeled_renames fs s d k)) s d k
      = plan_unlabeled_renames fs s d k := by
  show List.filterMap (renameStep s d k)
      (fs.files ++ (plan_unlabeled_renames fs s d k).map fun p => p.dst)
    = plan_unlabeled_renames fs s d k
  rw [List.filterMap_append]
  have hnil : List.filterMap (renameStep s d k)
      ((plan_unlabeled_renames fs s d k).map fun p => p.dst) = [] := by
    rw [List.filterMap_eq_nil_iff]
    intro x hx
    rcases List.mem_map.1 hx with ⟨pl, hpl, rfl⟩
    rcases List.mem_filterMap.1 hpl with ⟨src, hsrc, hstep⟩
    rw [renameStep_some hstep]
    exact renameStep_concat_jpg_none s d k _ _
  rw [hnil, List.append_nil]
  rfl

/-- Claim C5, counterexample: the rename planner has no
destination-exists short-circuit.  In this snapshot the extensionless
source `noext` already has its destination `out/noext.jpg` present, yet
`plan_unlabeled_renames` still emits the plan instead of skipping it. -/
theorem plan_unlabeled_renames_ignores_existing_dst :
    pathExists ⟨[["noext"], ["out", "noext.jpg"]]⟩ ["out", "noext.jpg"] = true ∧
      plan_unlabeled_renames ⟨[["noext"], ["out", "noext.jpg"]]⟩ [] ["out"] none
        = [⟨["noext"], ["out", "noext.jpg"]⟩] := by
  decide

/-- Claim C5 (amended): only the copy planner is idempotent via the
destination-exists short-circuit: after executing the copy plans, a
second planning pass yields no plans (provided the output root is not a
strict ancestor of the input root) and so the second copy run performs
zero work; the rename planner has no destination-existence check, and
because `RenameService` copies (sources persist), a second planning pass
re-emits exactly the same rename plans rather than an empty list. -/
theorem copy_idempotent_rename_replans (fs : Snapshot) (i o s d : PathL)
    (k : Option PathL) (orc : ExecOracle)
    (h : is_within_path i o = false ∨ i = o) :
    plan_copy_standalone_mp4s
        (applyCopyPlans fs (plan_copy_standalone_mp4s fs i o)) i o = [] ∧
      CopyService.run orc
          (plan_copy_standalone_mp4s
            (applyCopyPlans fs (plan_copy_standalone_mp4s fs i o)) i o) false
        = Except.ok 0 ∧
      plan_unlabeled_renames (applyRenamePlans fs (plan_unlabeled_renames fs s d k)) s d k
        = plan_unlabeled_renames fs s d k := by
  have hcopy := plan_copy_second_run_empty fs i o h
  refine ⟨hcopy, ?_, plan_rename_second_run fs s d k⟩
  rw [hcopy]
  rfl

/-- Witness for C5's amended theorem: a standalone video and an
extensionless file, with the output root disjoint from the input root. -/
theorem copy_idempotent_rename_replans_witness :
    plan_copy_standalone_mp4s
        (applyCopyPlans demoFs (plan_copy_standalone_mp4s demoFs [] ["out"])) [] ["out"] = [] ∧
      CopyService.run allOkOracle
          (plan_copy_standalone_mp4s
            (applyCopyPlans demoFs (plan_copy_standalone_mp4s demoFs [] ["out"])) [] ["out"]) false
        = Except.ok 0 ∧
      plan_unlabeled_renames
          (applyRenamePlans demoFs (plan_unlabeled_renames demoFs [] ["out"] none)) [] ["out"] none
        = plan_unlabeled_renames demoFs [] ["out"] none :=
  copy_idempotent_rename_replans demoFs [] ["out"] [] ["out"] none allOkOracle
    (Or.inl (by decide))

theorem rfindDot_append_zip (y : String) :
    rfindDot (y ++ ".zip") = some y.data.length := by
  rw [rfindDot]
  have hdata : (y ++ ".zip").data = y.data ++ ".zip".data := String.data_append y ".zip"
  rw [hdata, List.reverse_append]
  have hfour : (".zip".data.reverse).findIdx? (fun c => c == '.') = some 3 := by decide
  rw [List.findIdx?_append, hfour]
  simp [List.length_append]

theorem pyStem_ne_empty (name : String) (h : name ≠ "") : pyStem name ≠ "" := by
  rw [pyStem]
  cases hr : rfindDot name with
  | none => exact h
  | some i =>
    dsimp only
    split_ifs with hc
    · obtain ⟨h0, _⟩ := hc
      intro hEq
      have hdata : name.data.take i = [] := congrArg String.data hEq
      rcases List.take_eq_nil_iff.1 hdata with h' | h'
      · omega
      · apply h
        cases name
        simp_all
    · exact h

theorem pySuffix_append_zip (y : String) (hy : y ≠ "") :
    pySuffix (y ++ ".zip") = ".zip" := by
  rw [pySuffix, rfindDot_append_zip]
  have hlen : (y ++ ".zip").data.length = y.data.length + 4 := by
    rw [String.data_append]
    simp
  have hypos : 0 < y.data.length := by
    cases y with
    | mk l =>
      cases l with
      | nil => exact absurd rfl hy
      | cons c cs => simp
  rw [hlen]
  dsimp only
  rw [if_pos (by omega)]
  apply congrArg String.mk
  rw [String.data_append, List.drop_left]

theorem isZipName_withSuffixZip (p : PathL) (hne : nameOf p ≠ "") :
    isZipName (withSuffixZip p) = true := by
  rw [isZipName, withSuffixZip, nameOf_concat,
    pySuffix_append_zip _ (pyStem_ne_empty _ hne)]
  decide

theorem isZipName_name_ne_empty {p : PathL} (h : isZipName p = true) :
    nameOf p ≠ "" := by
  intro hn
  rw [isZipName, hn] at h
  exact absurd h (by decide)

theorem evolves_renameEntry {init cur : List Entry}
    (hF : List.Forall₂ Evolves init cur)
    (old dst : PathL) (hold : isZipName old = false) (hdst : isZipName dst = true) :
    List.Forall₂ Evolves init (renameEntry cur old dst) := by
  rw [renameEntry, List.forall₂_map_right_iff]
  apply hF.imp
  intro a b hab
  by_cases hb : b.path = old
  · have hfb : (if b.path == old then { b with path := dst } else b)
        = { b with path := dst } := by
      simp [hb]
    rw [hfb]
    obtain ⟨hcnt, hfile, hpath⟩ := hab
    refine ⟨hcnt, hfile, Or.inr ⟨?_, hdst⟩⟩
    rcases hpath with hba | ⟨haz, hbz⟩
    · rw [← hba, hb]
      exact hold
    · rw [hb] at hbz
      rw [hold] at hbz
      cases hbz
  · have hfb : (if b.path == old then { b with path := dst } else b) = b := by
      simp [hb]
    rw [hfb]
    exact hab

theorem nodup_update_of_not_mem {l : List PathL} (hnd : l.Nodup) {old dst : PathL}
    (hdst : dst ∉ l) : (l.map fun p => if p = old then dst else p).Nodup := by
  induction l with
  | nil => simp
  | cons a t ih =>
    rw [List.map_cons]
    rcases List.nodup_cons.1 hnd with ⟨hat, hndt⟩
    have hdt : dst ∉ t := fun hm => hdst (List.mem_cons_of_mem a hm)
    have ihh := ih hndt hdt
    rw [List.nodup_cons]
    refine ⟨?_, ihh⟩
    intro hmem
    rcases List.mem_map.1 hmem with ⟨p, hp, hEq⟩
    by_cases hao : a = old
    · rw [if_pos hao] at hEq
      by_cases hpo : p = old
      · exact hat ((hpo.trans hao.symm) ▸ hp)
      · rw [if_neg hpo] at hEq
        exact hdt (hEq ▸ hp)
    · rw [if_neg hao] at hEq
      by_cases hpo : p = old
      · rw [if_pos hpo] at hEq
        exact hdst (by rw [hEq]; exact List.mem_cons_self a t)
      · rw [if_neg hpo] at hEq
        exact hat (hEq ▸ hp)

theorem nodup_renameEntry {cur : List Entry}
    (hnd : (cur.map fun e => e.path).Nodup)
    (old dst : PathL) (hdst : entryExists cur dst = false) :
    ((renameEntry cur old dst).map fun e => e.path).Nodup := by
  have hmap : (renameEntry cur old dst).map (fun e => e.path)
      = (cur.map fun e => e.path).map fun p => if p = old then dst else p := by
    rw [renameEntry, List.map_map, List.map_map]
    apply List.map_congr_left
    intro e _
    by_cases hp : e.path = old <;> simp [hp]
  rw [hmap]
  apply nodup_update_of_not_mem hnd
  intro hmem
  rcases List.mem_map.1 hmem with ⟨e, he, hEq⟩
  have hTrue : entryExists cur dst = true := by
    rw [entryExists]
    exact List.any_eq_true.2 ⟨e, he, by simp [hEq]⟩
  rw [hdst] at hTrue
  cases hTrue

theorem forall₂_mem_left {R : Entry → Entry → Prop} :
    ∀ {l₁ l₂ : List Entry}, List.Forall₂ R l₁ l₂ → ∀ a ∈ l₁, ∃ b ∈ l₂, R a b := by
  intro l₁ l₂ h
  induction h with
  | nil => intro a ha; cases ha
  | cons hab htail ih =>
    intro x hx
    rcases List.mem_cons.1 hx with rfl | hx2
    · exact ⟨_, List.mem_cons_self _ _, hab⟩
    · rcases ih x hx2 with ⟨b, hb, hRb⟩
      exact ⟨b, List.mem_cons_of_mem _ hb, hRb⟩

theorem evolves_zip_fixed {a b : Entry} (hE : Evolves a b)
    (hz : isZipName a.path = true) : b = a := by
  obtain ⟨hc, hf, hp⟩ := hE
  rcases hp with hba | ⟨haz, _⟩
  · cases a; cases b; simp_all
  · rw [hz] at haz; cases haz

theorem fixInv_zip_entry_mem {init cur : List Entry} (hI : FixInv init cur)
    {e : Entry} (he : e ∈ init) (hz : isZipName e.path = true) : e ∈ cur := by
  rcases forall₂_mem_left hI.1 e he with ⟨b, hb, hE⟩
  exact (evolves_zip_fixed hE hz) ▸ hb

theorem fixStep_inv {init : List Entry}
    (hne : ∀ e ∈ init, nameOf e.path ≠ "")
    {cur : List Entry} {n : Nat} (hI : FixInv init cur)
    (e : Entry) (he : e ∈ init) :
    FixInv init (fixStep (cur, n) e).1 := by
  simp only [fixStep]
  split_ifs with h1 h2 h3 h4
  · exact hI
  · exact hI
  · exact hI
  · refine ⟨?_, ?_⟩
    · apply evolves_renameEntry hI.1 e.path (withSuffixZip e.path) ?_ ?_
      · simpa using h2
      · exact isZipName_withSuffixZip _ (hne e he)
    · apply nodup_renameEntry hI.2 e.path (withSuffixZip e.path)
      simpa using h4
  · exact hI

theorem fix_fold_inv {init : List Entry} (hne : ∀ e ∈ init, nameOf e.path ≠ "") :
    ∀ listing : List Entry, (∀ x ∈ listing, x ∈ init) →
      ∀ (cur : List Entry) (n : Nat), FixInv init cur →
        FixInv init (listing.foldl fixStep (cur, n)).1 := by
  intro listing
  induction listing with
  | nil => intro _ cur n hI; exact hI
  | cons e rest ih =>
    intro hsub cur n hI
    rw [List.foldl_cons]
    have hI' := fixStep_inv hne (n := n) hI e (hsub e (List.mem_cons_self e rest))
    have hres := ih (fun x hx => hsub x (List.mem_cons_of_mem e hx))
      (fixStep (cur, n) e).1 (fixStep (cur, n) e).2 hI'
    simpa using hres

theorem eq_of_path_eq {init : List Entry}
    (hnd : (init.map fun e => e.path).Nodup)
    {a b : Entry} (ha : a ∈ init) (hb : b ∈ init) (hp : a.path = b.path) :
    a = b :=
  List.inj_on_of_nodup_map hnd ha hb hp

theorem fix_fold_keep {init : List Entry}
    (hnd0 : (init.map fun e => e.path).Nodup)
    (hne : ∀ e ∈ init, nameOf e.path ≠ "")
    {e : Entry} (he : e ∈ init)
    {dE : Entry} (hdE : dE ∈ init) (hdP : dE.path = withSuffixZip e.path)
    (hdz : isZipName dE.path = true) :
    ∀ listing : List Entry, (∀ x ∈ listing, x ∈ init) →
      ∀ (cur : List Entry) (n : Nat), FixInv init cur → e ∈ cur →
        e ∈ (listing.foldl fixStep (cur, n)).1 := by
  intro listing
  induction listing with
  | nil => intro _ cur n _ hmem; exact hmem
  | cons x rest ih =>
    intro hsub cur n hI hmem
    rw [List.foldl_cons]
    have hI' := fixStep_inv hne (n := n) hI x (hsub x (List.mem_cons_self x rest))
    have hkeep : e ∈ (fixStep (cur, n) x).1 := by
      simp only [fixStep]
      split_ifs with h1 h2 h3 h4
      · exact hmem
      · exact hmem
      · exact hmem
      · by_cases hex : e.path = x.path
        · exfalso
          have hxe : x = e :=
            eq_of_path_eq hnd0 (hsub x (List.mem_cons_self x rest)) he hex.symm
          have hdmem : dE ∈ cur := fixInv_zip_entry_mem hI hdE hdz
          have hTrue : entryExists cur (withSuffixZip x.path) = true := by
            rw [entryExists]
            refine List.any_eq_true.2 ⟨dE, hdmem, ?_⟩
            rw [hxe, ← hdP]
            simp
          exact h4 hTrue
        · rw [renameEntry]
          refine List.mem_map.2 ⟨e, hmem, ?_⟩
          simp [hex]
      · exact hmem
    have hres := ih (fun y hy => hsub y (List.mem_cons_of_mem x hy))
      (fixStep (cur, n) x).1 (fixStep (cur, n) x).2 hI' hkeep
    simpa using hres

theorem forall₂_evolves_map_content {init cur : List Entry}
    (h : List.Forall₂ Evolves init cur) :
    cur.map (fun e => (e.content, e.isFile)) = init.map fun e => (e.content, e.isFile) := by
  induction h with
  | nil => rfl
  | cons hab ht ih => simp [ih, hab.1, hab.2.1]

/-- Claim C7: the ZIP repair step never overwrites an existing file.
Over any duplicate-free snapshot (with nonempty file names), the loop
(i) only renames — contents and file-kinds are exactly the initial ones,
(ii) keeps paths duplicate-free (a rename never lands on an occupied
path), (iii) leaves every `.zip`-named file untouched, and (iv) leaves a
content-sniffed archive whose `<stem>.zip` destination already exists
untouched — that rename is not performed. -/
theorem detect_and_fix_never_overwrites (folder : PathL) (init : List Entry)
    (hnd : (init.map fun e => e.path).Nodup)
    (hne : ∀ e ∈ init, nameOf e.path ≠ "") :
    ((detect_and_fix_zip_files init folder).1.map fun e => (e.content, e.isFile))
        = init.map (fun e => (e.content, e.isFile)) ∧
      ((detect_and_fix_zip_files init folder).1.map fun e => e.path).Nodup ∧
      (∀ e ∈ init, isZipName e.path = true →
        e ∈ (detect_and_fix_zip_files init folder).1) ∧
      (∀ e ∈ init, e.content.take 4 = zipSig →
        entryExists init (withSuffixZip e.path) = true →
        e ∈ (detect_and_fix_zip_files init folder).1) := by
  have hInv0 : FixInv init init :=
    ⟨List.forall₂_same.2 fun a _ => ⟨rfl, rfl, Or.inl rfl⟩, hnd⟩
  have hsub : ∀ x ∈ init.filter (fun e => dirOf e.path == folder), x ∈ init :=
    fun x hx => List.mem_of_mem_filter hx
  have hInvF : FixInv init (detect_and_fix_zip_files init folder).1 :=
    fix_fold_inv hne _ hsub init 0 hInv0
  refine ⟨forall₂_evolves_map_content hInvF.1, hInvF.2, ?_, ?_⟩
  · intro e he hz
    exact fixInv_zip_entry_mem hInvF he hz
  · intro e he hsig hex
    by_cases hz : isZipName e.path = true
    · exact fixInv_zip_entry_mem hInvF he hz
    · rcases List.any_eq_true.1 hex with ⟨dE, hdE, hdP⟩
      have hdP' : dE.path = withSuffixZip e.path := by simpa using hdP
      have hdz : isZipName dE.path = true := by
        rw [hdP']
        exact isZipName_withSuffixZip _ (hne e he)
      exact fix_fold_keep hnd hne he hdE hdP' hdz _ hsub init 0 hInv0 he

/-- Witness for C7: the sniffed archive `a.dat` whose destination
`a.zip` already exists is left untouched by the repair loop; `a.zip`
itself also survives unchanged, and no rename is counted. -/
theorem detect_and_fix_never_overwrites_witness :
    (⟨["a.dat"], [0x50, 0x4B, 0x03, 0x04], true⟩ : Entry)
        ∈ (detect_and_fix_zip_files demoFixEntries []).1 ∧
      (⟨["a.zip"], [7], true⟩ : Entry)
        ∈ (detect_and_fix_zip_files demoFixEntries []).1 := by
  have h := detect_and_fix_never_overwrites [] demoFixEntries (by decide) (by decide)
  constructor
  · exact h.2.2.2 ⟨["a.dat"], [0x50, 0x4B, 0x03, 0x04], true⟩
      (by decide) (by decide) (by decide)
  · exact h.2.2.1 ⟨["a.zip"], [7], true⟩ (by decide) (by decide)
